import Mathlib

/-!
Shallow embedding of the convolution engine of image_pthread.c and proofs of
the specification's testable properties.

The program applies a fixed 3x3 kernel to a raster image.  The repository
ships only image_pthread.c; the header image.h (declaring the Image struct,
the Matrix typedef, the KernelTypes enumeration and the Index macro) is not
present, so those pieces are modelled from the specification's data model,
which records the exact layout: samples are unsigned 8-bit values in a flat
row-major channel-interleaved buffer, and the sample at (x, y, channel) lives
at offset (y * width + x) * channelCount + channel.

Machine integers are embedded as Nat/Int; the C sampling arithmetic (kernel
weights times samples, narrowed into uint8_t) is embedded over the rationals
with explicit truncation toward zero followed by reduction modulo 2^8, which
is the wrap policy the specification assigns to the narrowing.
-/

namespace ImagePthread

/-- Modelled from the spec: the Image struct of the missing header image.h.
Width, height and channel count (bpp), plus the flat pixel buffer of
unsigned 8-bit samples. -/
structure Image where
  width : ℕ
  height : ℕ
  bpp : ℕ
  data : List ℕ

/-- Modelled from the spec: the Matrix typedef of the missing header
image.h, a 3x3 matrix of real-valued kernel weights, embedded as
rationals. -/
abbrev Matrix : Type := Fin 3 → Fin 3 → ℚ

/-- Helper building a 3x3 kernel matrix from its nine entries in row-major
order, mirroring a C initializer of three braced rows. -/
def mat3 (a00 a01 a02 a10 a11 a12 a20 a21 a22 : ℚ) : Matrix := fun i j =>
  match i, j with
  | 0, 0 => a00
  | 0, 1 => a01
  | 0, 2 => a02
  | 1, 0 => a10
  | 1, 1 => a11
  | 1, 2 => a12
  | 2, 0 => a20
  | 2, 1 => a21
  | 2, 2 => a22

/-- Modelled from the spec: the KernelTypes enumeration of the missing
header image.h, in the order the kernel table and GetKernelType use. -/
inductive KernelTypes
  | EDGE
  | SHARPEN
  | BLUR
  | GAUSE_BLUR
  | EMBOSS
  | IDENTITY

/-- The static table of kernel matrices of image_pthread.c, indexed by the
KernelTypes enumeration. -/
def algorithms : KernelTypes → Matrix
  | .EDGE => mat3 0 (-1) 0 (-1) 4 (-1) 0 (-1) 0
  | .SHARPEN => mat3 0 (-1) 0 (-1) 5 (-1) 0 (-1) 0
  | .BLUR => mat3 (1/9) (1/9) (1/9) (1/9) (1/9) (1/9) (1/9) (1/9) (1/9)
  | .GAUSE_BLUR => mat3 (1/16) (1/8) (1/16) (1/8) (1/4) (1/8) (1/16) (1/8) (1/16)
  | .EMBOSS => mat3 (-2) (-1) 0 (-1) 1 1 0 1 2
  | .IDENTITY => mat3 0 0 0 0 1 0 0 0 0

/-- Modelled from the spec: the Index macro of the missing header image.h.
The sample at (x, y, channel) lives at flat offset
(y * width + x) * channelCount + channel. -/
def Index (x y width bit bpp : ℤ) : ℤ := (y * width + x) * bpp + bit

/-- Reading srcImage->data[i]: buffer cells are unsigned 8-bit samples,
embedded as naturals; an index is an int in the C source, converted to a
position in the flat buffer. -/
def readData (d : List ℕ) (i : ℤ) : ℕ := d.getD i.toNat 0

/-- Truncation toward zero of a rational, the C semantics of narrowing the
floating sampling sum into an integer. -/
def truncQ (q : ℚ) : ℤ := q.num.tdiv q.den

/-- Narrowing the sampling sum into uint8_t: truncation toward zero, then
reduction modulo 2^8, the wrap policy of the specification. -/
def wrap8 (q : ℚ) : ℕ := ((truncQ q).emod 256).toNat

/-- Lower clamp of a neighbor coordinate, the statements
if (mx < 0) mx = 0 and if (my < 0) my = 0 of getPixelValue. -/
def clampLow (c : ℤ) : ℤ := if c < 0 then 0 else c

/-- Upper clamp of a neighbor coordinate, the statements
if (px >= width) px = width - 1 and if (py >= height) py = height - 1 of
getPixelValue. -/
def clampHigh (c bound : ℤ) : ℤ := if c ≥ bound then bound - 1 else c

/-- The pixel sampler getPixelValue of image_pthread.c: clamp the 3x3
neighborhood coordinates of (x, y) to the image, form the weighted sum of
the nine samples on channel bit, and narrow the result into uint8_t. -/
def getPixelValue (srcImage : Image) (x y bit : ℤ) (algorithm : Matrix) : ℕ :=
  let w : ℤ := srcImage.width
  let h : ℤ := srcImage.height
  let bpp : ℤ := srcImage.bpp
  let mx : ℤ := clampLow (x - 1)
  let my : ℤ := clampLow (y - 1)
  let px : ℤ := clampHigh (x + 1) w
  let py : ℤ := clampHigh (y + 1) h
  wrap8 (
    algorithm 0 0 * (readData srcImage.data (Index mx my w bit bpp) : ℚ) +
    algorithm 0 1 * (readData srcImage.data (Index x my w bit bpp) : ℚ) +
    algorithm 0 2 * (readData srcImage.data (Index px my w bit bpp) : ℚ) +
    algorithm 1 0 * (readData srcImage.data (Index mx y w bit bpp) : ℚ) +
    algorithm 1 1 * (readData srcImage.data (Index x y w bit bpp) : ℚ) +
    algorithm 1 2 * (readData srcImage.data (Index px y w bit bpp) : ℚ) +
    algorithm 2 0 * (readData srcImage.data (Index mx py w bit bpp) : ℚ) +
    algorithm 2 1 * (readData srcImage.data (Index x py w bit bpp) : ℚ) +
    algorithm 2 2 * (readData srcImage.data (Index px py w bit bpp) : ℚ))

/-- Validity of an image per the data model: the buffer length is exactly
width * height * channelCount and every sample fits in 8 bits. -/
def Valid (img : Image) : Prop :=
  img.data.length = img.width * img.height * img.bpp ∧ ∀ v ∈ img.data, v < 256

/-- The 3x3 grayscale image of the specification's concrete scenario. -/
def sampleImage3 : Image := ⟨3, 3, 1, [10, 20, 30, 40, 50, 60, 70, 80, 90]⟩

/-- C2: on the 3x3 grayscale image [10,20,30,40,50,60,70,80,90] convolved
with the box-blur kernel (all nine weights 1/9), the sampler yields 50 at
the center pixel (1,1) and 23 = truncate(210/9) at the corner pixel
(0,0). -/
theorem C2_blur_concrete_scenario :
    getPixelValue sampleImage3 1 1 0 (algorithms .BLUR) = 50 ∧
    getPixelValue sampleImage3 0 0 0 (algorithms .BLUR) = 23 := by
  have r0 : readData [10, 20, 30, 40, 50, 60, 70, 80, 90] 0 = 10 := by decide
  have r1 : readData [10, 20, 30, 40, 50, 60, 70, 80, 90] 1 = 20 := by decide
  have r2 : readData [10, 20, 30, 40, 50, 60, 70, 80, 90] 2 = 30 := by decide
  have r3 : readData [10, 20, 30, 40, 50, 60, 70, 80, 90] 3 = 40 := by decide
  have r4 : readData [10, 20, 30, 40, 50, 60, 70, 80, 90] 4 = 50 := by decide
  have r5 : readData [10, 20, 30, 40, 50, 60, 70, 80, 90] 5 = 60 := by decide
  have r6 : readData [10, 20, 30, 40, 50, 60, 70, 80, 90] 6 = 70 := by decide
  have r7 : readData [10, 20, 30, 40, 50, 60, 70, 80, 90] 7 = 80 := by decide
  have r8 : readData [10, 20, 30, 40, 50, 60, 70, 80, 90] 8 = 90 := by decide
  constructor
  · norm_num [getPixelValue, sampleImage3, algorithms, mat3, Index,
      clampLow, clampHigh, wrap8, truncQ, r0, r1, r2, r3, r4, r5, r6, r7, r8]
    all_goals decide
  · norm_num [getPixelValue, sampleImage3, algorithms, mat3, Index,
      clampLow, clampHigh, wrap8, truncQ, r0, r1, r2, r3, r4, r5, r6, r7, r8]
    all_goals decide

/-- Clamping as the specification words it: a coordinate outside
[0, bound) goes to the nearest valid coordinate, 0 if negative and
bound - 1 if beyond the boundary. -/
def clampSpec (c bound : ℤ) : ℤ := max 0 (min c (bound - 1))

/-- The sampling sum as the specification words it: the sum over the nine
kernel cells of the weight times the source sample at the two-sidedly
clamped neighbor coordinate. -/
def sampleSumSpec (img : Image) (x y bit : ℤ) (k : Matrix) : ℚ :=
  k 0 0 * (readData img.data (Index (clampSpec (x - 1) img.width) (clampSpec (y - 1) img.height) img.width bit img.bpp) : ℚ) +
  k 0 1 * (readData img.data (Index (clampSpec x img.width) (clampSpec (y - 1) img.height) img.width bit img.bpp) : ℚ) +
  k 0 2 * (readData img.data (Index (clampSpec (x + 1) img.width) (clampSpec (y - 1) img.height) img.width bit img.bpp) : ℚ) +
  k 1 0 * (readData img.data (Index (clampSpec (x - 1) img.width) (clampSpec y img.height) img.width bit img.bpp) : ℚ) +
  k 1 1 * (readData img.data (Index (clampSpec x img.width) (clampSpec y img.height) img.width bit img.bpp) : ℚ) +
  k 1 2 * (readData img.data (Index (clampSpec (x + 1) img.width) (clampSpec y img.height) img.width bit img.bpp) : ℚ) +
  k 2 0 * (readData img.data (Index (clampSpec (x - 1) img.width) (clampSpec (y + 1) img.height) img.width bit img.bpp) : ℚ) +
  k 2 1 * (readData img.data (Index (clampSpec x img.width) (clampSpec (y + 1) img.height) img.width bit img.bpp) : ℚ) +
  k 2 2 * (readData img.data (Index (clampSpec (x + 1) img.width) (clampSpec (y + 1) img.height) img.width bit img.bpp) : ℚ)

lemma clampLow_eq_spec (c bound : ℤ) (h : c < bound) :
    clampLow c = clampSpec c bound := by
  unfold clampLow clampSpec
  split_ifs <;> omega

lemma clampHigh_eq_spec (c bound : ℤ) (h0 : 0 ≤ c) (hb : 0 < bound) :
    clampHigh c bound = clampSpec c bound := by
  unfold clampHigh clampSpec
  split_ifs <;> omega

lemma center_eq_spec (c bound : ℤ) (h0 : 0 ≤ c) (h : c < bound) :
    c = clampSpec c bound := by
  unfold clampSpec
  omega

/-- Sampler refinement: on every in-bounds coordinate, the code's one-sided
clamps agree with the specification's two-sided clamp, so getPixelValue is
the narrowed specification sampling sum. -/
lemma getPixelValue_eq_spec (img : Image) (x y bit : ℤ) (k : Matrix)
    (hx0 : 0 ≤ x) (hx : x < img.width) (hy0 : 0 ≤ y) (hy : y < img.height) :
    getPixelValue img x y bit k = wrap8 (sampleSumSpec img x y bit k) := by
  have hw : (0 : ℤ) < img.width := lt_of_le_of_lt hx0 hx
  have hh : (0 : ℤ) < img.height := lt_of_le_of_lt hy0 hy
  have e1 : clampLow (x - 1) = clampSpec (x - 1) img.width :=
    clampLow_eq_spec (x - 1) img.width (by omega)
  have e2 : clampLow (y - 1) = clampSpec (y - 1) img.height :=
    clampLow_eq_spec (y - 1) img.height (by omega)
  have e3 : clampHigh (x + 1) img.width = clampSpec (x + 1) img.width :=
    clampHigh_eq_spec (x + 1) img.width (by omega) hw
  have e4 : clampHigh (y + 1) img.height = clampSpec (y + 1) img.height :=
    clampHigh_eq_spec (y + 1) img.height (by omega) hh
  have e5 : clampSpec x img.width = x := (center_eq_spec x img.width hx0 hx).symm
  have e6 : clampSpec y img.height = y := (center_eq_spec y img.height hy0 hy).symm
  simp only [getPixelValue, sampleSumSpec]
  rw [e1, e2, e3, e4, e5, e6]

/-- C3: for every in-bounds pixel coordinate, each neighbor coordinate
obtained by offsetting by -1/0/+1 is clamped to the nearest valid
coordinate (0 if negative, the maximum index if beyond the boundary)
before sampling, identically on both axes, so the sampler computes the
specification's clamped sampling sum. -/
theorem C3_edge_clamping (img : Image) (x y bit : ℤ) (k : Matrix)
    (hx0 : 0 ≤ x) (hx : x < img.width) (hy0 : 0 ≤ y) (hy : y < img.height) :
    clampLow (x - 1) = clampSpec (x - 1) img.width ∧
    clampHigh (x + 1) img.width = clampSpec (x + 1) img.width ∧
    clampLow (y - 1) = clampSpec (y - 1) img.height ∧
    clampHigh (y + 1) img.height = clampSpec (y + 1) img.height ∧
    getPixelValue img x y bit k = wrap8 (sampleSumSpec img x y bit k) := by
  have hw : (0 : ℤ) < img.width := lt_of_le_of_lt hx0 hx
  have hh : (0 : ℤ) < img.height := lt_of_le_of_lt hy0 hy
  refine ⟨?_, ?_, ?_, ?_, ?_⟩
  · exact clampLow_eq_spec (x - 1) img.width (by omega)
  · exact clampHigh_eq_spec (x + 1) img.width (by omega) hw
  · exact clampLow_eq_spec (y - 1) img.height (by omega)
  · exact clampHigh_eq_spec (y + 1) img.height (by omega) hh
  · exact getPixelValue_eq_spec img x y bit k hx0 hx hy0 hy

/-- A 2x2 single-channel image used to instantiate clamp statements. -/
def cornerImage : Image := ⟨2, 2, 1, [1, 2, 3, 4]⟩

/-- Witness for C3 at the corner pixel (0, 0) of a 2x2 image. -/
theorem C3_edge_clamping_witness :
    clampLow ((0 : ℤ) - 1) = clampSpec ((0 : ℤ) - 1) cornerImage.width ∧
    clampHigh ((0 : ℤ) + 1) cornerImage.width = clampSpec ((0 : ℤ) + 1) cornerImage.width ∧
    clampLow ((0 : ℤ) - 1) = clampSpec ((0 : ℤ) - 1) cornerImage.height ∧
    clampHigh ((0 : ℤ) + 1) cornerImage.height = clampSpec ((0 : ℤ) + 1) cornerImage.height ∧
    getPixelValue cornerImage 0 0 0 (algorithms .BLUR) =
      wrap8 (sampleSumSpec cornerImage 0 0 0 (algorithms .BLUR)) :=
  C3_edge_clamping cornerImage 0 0 0 (algorithms .BLUR)
    (by decide) (by decide) (by decide) (by decide)

/-- C6: on every in-bounds coordinate whose weighted neighborhood sum
truncates outside [0, 255], the sample the code returns is the truncated
sum reduced modulo 256 (wraparound), not clamped to [0, 255]. -/
theorem C6_wraparound (img : Image) (x y bit : ℤ) (k : Matrix)
    (hx0 : 0 ≤ x) (hx : x < img.width) (hy0 : 0 ≤ y) (hy : y < img.height)
    (hout : truncQ (sampleSumSpec img x y bit k) < 0 ∨
      255 < truncQ (sampleSumSpec img x y bit k)) :
    getPixelValue img x y bit k =
      ((truncQ (sampleSumSpec img x y bit k)).emod 256).toNat := by
  rw [getPixelValue_eq_spec img x y bit k hx0 hx hy0 hy]
  rfl

/-- A kernel of nine -1 weights, driving the sampling sum negative. -/
def negKernel : Matrix := mat3 (-1) (-1) (-1) (-1) (-1) (-1) (-1) (-1) (-1)

/-- A 1x1 single-channel image with the single sample 1. -/
def oneImage : Image := ⟨1, 1, 1, [1]⟩

/-- Witness for C6: on the 1x1 image with sample 1, the all (-1) kernel sums
to -9, and the returned sample is (-9) mod 256 = 247. -/
theorem C6_wraparound_witness :
    getPixelValue oneImage 0 0 0 negKernel =
      ((truncQ (sampleSumSpec oneImage 0 0 0 negKernel)).emod 256).toNat :=
  C6_wraparound oneImage 0 0 0 negKernel (by decide) (by decide) (by decide) (by decide)
    (Or.inl (by
      norm_num [sampleSumSpec, negKernel, mat3, clampSpec, Index, truncQ, oneImage,
        show readData [1] 0 = 1 from by decide]))

/-- C7: on a 1x1 image every one of the nine kernel cells samples the single
pixel, so the sampler returns the sum of all nine kernel weights times that
sample, narrowed by the wrap policy. -/
theorem C7_one_pixel_image (img : Image) (bit : ℤ) (k : Matrix)
    (hw : img.width = 1) (hh : img.height = 1) :
    getPixelValue img 0 0 bit k =
      wrap8 ((k 0 0 + k 0 1 + k 0 2 + k 1 0 + k 1 1 + k 1 2 + k 2 0 + k 2 1 + k 2 2) *
        (readData img.data (Index 0 0 1 bit img.bpp) : ℚ)) := by
  unfold getPixelValue
  rw [hw, hh]
  norm_num [clampLow, clampHigh]
  congr 1
  ring

/-- A 1x1 single-channel image with the single sample 7. -/
def sevenImage : Image := ⟨1, 1, 1, [7]⟩

/-- Witness for C7 on the 1x1 image with sample 7 and the box-blur
kernel. -/
theorem C7_one_pixel_image_witness :
    getPixelValue sevenImage 0 0 0 (algorithms .BLUR) =
      wrap8 ((algorithms .BLUR 0 0 + algorithms .BLUR 0 1 + algorithms .BLUR 0 2 +
        algorithms .BLUR 1 0 + algorithms .BLUR 1 1 + algorithms .BLUR 1 2 +
        algorithms .BLUR 2 0 + algorithms .BLUR 2 1 + algorithms .BLUR 2 2) *
        (readData sevenImage.data (Index 0 0 1 0 sevenImage.bpp) : ℚ)) :=
  C7_one_pixel_image sevenImage 0 (algorithms .BLUR) rfl rfl

lemma clampLow_bounds (c bound : ℤ) (h : c < bound) (hb : 0 < bound) :
    0 ≤ clampLow c ∧ clampLow c < bound := by
  unfold clampLow
  split_ifs <;> omega

lemma clampHigh_bounds (c bound : ℤ) (h0 : 0 ≤ c) (hb : 0 < bound) :
    0 ≤ clampHigh c bound ∧ clampHigh c bound < bound := by
  unfold clampHigh
  split_ifs <;> omega

lemma Index_bounds (cx cy w h bpp bit : ℤ)
    (hcx0 : 0 ≤ cx) (hcx : cx < w) (hcy0 : 0 ≤ cy) (hcy : cy < h)
    (hb0 : 0 ≤ bit) (hb : bit < bpp) :
    0 ≤ Index cx cy w bit bpp ∧ Index cx cy w bit bpp < w * h * bpp := by
  unfold Index
  constructor
  · have h1 : 0 ≤ cy * w := mul_nonneg hcy0 (by omega)
    have h2 : 0 ≤ (cy * w + cx) * bpp := mul_nonneg (by omega) (by omega)
    omega
  · have h1 : cy * w + cx + 1 ≤ h * w := by
      have h2 : cy * w ≤ (h - 1) * w := by
        have := mul_le_mul_of_nonneg_right (show cy ≤ h - 1 by omega) (show (0:ℤ) ≤ w by omega)
        linarith
      nlinarith
    have h3 : (cy * w + cx + 1) * bpp ≤ h * w * bpp := by
      exact mul_le_mul_of_nonneg_right h1 (by omega)
    nlinarith

/-- C10: for every valid image and in-bounds coordinate and channel, all
nine flat offsets getPixelValue reads, formed from the clamped neighbor
coordinates, lie within [0, width * height * channelCount), hence within
the buffer. -/
theorem C10_reads_in_bounds (img : Image) (x y bit : ℤ)
    (hv : Valid img)
    (hx0 : 0 ≤ x) (hx : x < img.width) (hy0 : 0 ≤ y) (hy : y < img.height)
    (hb0 : 0 ≤ bit) (hb : bit < img.bpp) :
    ∀ cx ∈ [clampLow (x - 1), x, clampHigh (x + 1) img.width],
    ∀ cy ∈ [clampLow (y - 1), y, clampHigh (y + 1) img.height],
    0 ≤ Index cx cy img.width bit img.bpp ∧
    Index cx cy img.width bit img.bpp < img.width * img.height * img.bpp ∧
    (Index cx cy img.width bit img.bpp).toNat < img.data.length := by
  have hw : (0 : ℤ) < img.width := lt_of_le_of_lt hx0 hx
  have hh : (0 : ℤ) < img.height := lt_of_le_of_lt hy0 hy
  have hlen : (img.data.length : ℤ) = (img.width : ℤ) * img.height * img.bpp := by
    rw [hv.1]; push_cast; ring
  intro cx hcx cy hcy
  have hcxb : 0 ≤ cx ∧ cx < (img.width : ℤ) := by
    rcases List.mem_cons.mp hcx with h | h
    · rw [h]; exact clampLow_bounds (x - 1) img.width (by omega) hw
    rcases List.mem_cons.mp h with h2 | h2
    · rw [h2]; exact ⟨hx0, hx⟩
    · rcases List.mem_cons.mp h2 with h3 | h3
      · rw [h3]; exact clampHigh_bounds (x + 1) img.width (by omega) hw
      · cases h3
  have hcyb : 0 ≤ cy ∧ cy < (img.height : ℤ) := by
    rcases List.mem_cons.mp hcy with h | h
    · rw [h]; exact clampLow_bounds (y - 1) img.height (by omega) hh
    rcases List.mem_cons.mp h with h2 | h2
    · rw [h2]; exact ⟨hy0, hy⟩
    · rcases List.mem_cons.mp h2 with h3 | h3
      · rw [h3]; exact clampHigh_bounds (y + 1) img.height (by omega) hh
      · cases h3
  obtain ⟨hi0, hi1⟩ := Index_bounds cx cy img.width img.height img.bpp bit
    hcxb.1 hcxb.2 hcyb.1 hcyb.2 hb0 hb
  refine ⟨hi0, hi1, ?_⟩
  omega

/-- Witness for C10: the left-clamped neighbor of pixel (1, 0), channel 0,
of the 2x2 image reads in bounds. -/
theorem C10_reads_in_bounds_witness :
    0 ≤ Index (clampLow ((1 : ℤ) - 1)) (clampLow ((0 : ℤ) - 1))
      cornerImage.width 0 cornerImage.bpp ∧
    Index (clampLow ((1 : ℤ) - 1)) (clampLow ((0 : ℤ) - 1))
      cornerImage.width 0 cornerImage.bpp <
      cornerImage.width * cornerImage.height * cornerImage.bpp ∧
    (Index (clampLow ((1 : ℤ) - 1)) (clampLow ((0 : ℤ) - 1))
      cornerImage.width 0 cornerImage.bpp).toNat < cornerImage.data.length :=
  C10_reads_in_bounds cornerImage 1 0 0 (by constructor <;> decide)
    (by decide) (by decide) (by decide) (by decide) (by decide) (by decide)
    (clampLow ((1 : ℤ) - 1)) (by decide) (clampLow ((0 : ℤ) - 1)) (by decide)

/-- The thread argument structure ThreadArgs of image_pthread.c.  The
destination buffer the C code reaches through the dest pointer is threaded
through explicitly as the mutable state. -/
structure ThreadArgs where
  src : Image
  algorithm : Matrix
  start_row : ℕ
  num_rows : ℕ
  width : ℕ
  bpp : ℕ

/-- The coordinates (row, pix, bit) visited by convolute_thread's triple
loop: the assigned rows from start_row, then every column, then every
channel. -/
def threadCoords (args : ThreadArgs) : List (ℕ × ℕ × ℕ) :=
  (List.range args.num_rows).flatMap (fun r =>
    (List.range args.width).flatMap (fun pix =>
      (List.range args.bpp).map (fun bit => (args.start_row + r, pix, bit))))

/-- The buffer position Index(pix, row, width, bit, bpp) of one thread
write. -/
def writeIndex (w bpp : ℕ) (c : ℕ × ℕ × ℕ) : ℕ :=
  (Index c.2.1 c.1 w c.2.2 bpp).toNat

/-- One iteration of convolute_thread's innermost loop: compute the sample
with getPixelValue and store it at the destination offset. -/
def writeCell (src : Image) (algorithm : Matrix) (w bpp : ℕ)
    (d : List ℕ) (c : ℕ × ℕ × ℕ) : List ℕ :=
  d.set (writeIndex w bpp c) (getPixelValue src c.2.1 c.1 c.2.2 algorithm)

/-- The thread function convolute_thread of image_pthread.c: iterate the
assigned rows, columns and channels, writing each sample into the
destination buffer. -/
def convolute_thread (args : ThreadArgs) (dest : List ℕ) : List ℕ :=
  (threadCoords args).foldl (writeCell args.src args.algorithm args.width args.bpp) dest

/-- The fixed worker count of convolute. -/
def num_threads : ℕ := 4

/-- The row partitioning loop of convolute: worker i receives
h / nt + 1 rows while i < h % nt and h / nt rows after that, consecutively
from row cur; a worker whose row count is 0 breaks the spawn loop.  The
fuel argument counts the remaining loop iterations and is nt at the call
site. -/
def buildRanges (h nt : ℕ) : ℕ → ℕ → ℕ → List (ℕ × ℕ)
  | 0, _, _ => []
  | fuel + 1, i, cur =>
    if i < nt then
      if h / nt + (if i < h % nt then 1 else 0) = 0 then []
      else (cur, h / nt + (if i < h % nt then 1 else 0)) ::
        buildRanges h nt fuel (i + 1) (cur + (h / nt + (if i < h % nt then 1 else 0)))
    else []

/-- Total number of rows assigned by the spawn loop from iteration i on,
following the same recursion and break as buildRanges. -/
def totalRows (h nt : ℕ) : ℕ → ℕ → ℕ
  | 0, _ => 0
  | fuel + 1, i =>
    if i < nt then
      if h / nt + (if i < h % nt then 1 else 0) = 0 then 0
      else (h / nt + (if i < h % nt then 1 else 0)) + totalRows h nt fuel (i + 1)
    else 0

/-- The row ranges convolute computes for an image of height h. -/
def threadRanges (h : ℕ) : List (ℕ × ℕ) := buildRanges h num_threads num_threads 0 0

/-- The workers convolute spawns: one ThreadArgs per computed row range,
sharing the source image, the kernel, the width and the channel count. -/
def threadsOf (src : Image) (algorithm : Matrix) : List ThreadArgs :=
  (threadRanges src.height).map
    (fun t => ⟨src, algorithm, t.1, t.2, src.width, src.bpp⟩)

/-- Execution of the spawned workers on the destination buffer, in the
given schedule order. -/
def runThreads (ts : List ThreadArgs) (dest : List ℕ) : List ℕ :=
  ts.foldl (fun d args => convolute_thread args d) dest

/-- The driver convolute of image_pthread.c: partition the source rows
over num_threads workers, run every spawned worker, and return the filled
destination.  The C function performs no validation of the destination's
shape. -/
def convolute (srcImage destImage : Image) (algorithm : Matrix) : Image :=
  { destImage with data := runThreads (threadsOf srcImage algorithm) destImage.data }

/-- The pair of images a convolute call can reach through its two
pointers. -/
structure ConvState where
  srcImage : Image
  destImage : Image

/-- A convolute call as a transition on the pair of images. -/
def convoluteRun (s : ConvState) (algorithm : Matrix) : ConvState :=
  ⟨s.srcImage, convolute s.srcImage s.destImage algorithm⟩

lemma foldl_writeCell_length (src : Image) (a : Matrix) (w bpp : ℕ) :
    ∀ (cs : List (ℕ × ℕ × ℕ)) (d : List ℕ),
      (cs.foldl (writeCell src a w bpp) d).length = d.length := by
  intro cs
  induction cs with
  | nil => intro d; rfl
  | cons c cs ih =>
    intro d
    rw [List.foldl_cons, ih]
    simp [writeCell]

lemma convolute_thread_length (args : ThreadArgs) (d : List ℕ) :
    (convolute_thread args d).length = d.length :=
  foldl_writeCell_length args.src args.algorithm args.width args.bpp (threadCoords args) d

lemma runThreads_length (ts : List ThreadArgs) :
    ∀ d : List ℕ, (runThreads ts d).length = d.length := by
  induction ts with
  | nil => intro d; rfl
  | cons t ts ih =>
    intro d
    rw [show runThreads (t :: ts) d = runThreads ts (convolute_thread t d) from rfl, ih,
      convolute_thread_length]

/-- C9: a convolute call never mutates the source image: its width, height,
channel count and buffer are those of the state before the call; the
destination keeps its shape and buffer length, only the buffer content
changes. -/
theorem C9_source_immutable (s : ConvState) (a : Matrix) :
    (convoluteRun s a).srcImage = s.srcImage ∧
    (convoluteRun s a).destImage.width = s.destImage.width ∧
    (convoluteRun s a).destImage.height = s.destImage.height ∧
    (convoluteRun s a).destImage.bpp = s.destImage.bpp ∧
    (convoluteRun s a).destImage.data.length = s.destImage.data.length := by
  refine ⟨rfl, rfl, rfl, rfl, ?_⟩
  exact runThreads_length (threadsOf s.srcImage a) s.destImage.data

/-- A row r lies in one of the ranges of rs. -/
def covered (rs : List (ℕ × ℕ)) (r : ℕ) : Prop :=
  ∃ t ∈ rs, t.1 ≤ r ∧ r < t.1 + t.2

lemma covered_nil (r : ℕ) : ¬ covered [] r := by
  rintro ⟨t, ht, _⟩
  cases ht

lemma covered_cons (a : ℕ × ℕ) (l : List (ℕ × ℕ)) (r : ℕ) :
    covered (a :: l) r ↔ (a.1 ≤ r ∧ r < a.1 + a.2) ∨ covered l r := by
  constructor
  · rintro ⟨t, ht, hr⟩
    rcases List.mem_cons.mp ht with he | hm
    · left; rw [← he]; exact hr
    · right; exact ⟨t, hm, hr⟩
  · rintro (h | ⟨t, hm, hr⟩)
    · exact ⟨a, List.mem_cons_self a l, h⟩
    · exact ⟨t, List.mem_cons_of_mem a hm, hr⟩

lemma buildRanges_mem_bounds (h nt : ℕ) :
    ∀ (fuel i cur : ℕ) (t : ℕ × ℕ), t ∈ buildRanges h nt fuel i cur →
      0 < t.2 ∧ cur ≤ t.1 ∧ t.1 + t.2 ≤ cur + totalRows h nt fuel i := by
  intro fuel
  induction fuel with
  | zero =>
    intro i cur t ht
    simp [buildRanges] at ht
  | succ n ih =>
    intro i cur t ht
    by_cases h1 : i < nt
    · by_cases h2 : h / nt + (if i < h % nt then 1 else 0) = 0
      · simp [buildRanges, h1, h2] at ht
      · have hb : buildRanges h nt (n + 1) i cur =
            (cur, h / nt + (if i < h % nt then 1 else 0)) ::
              buildRanges h nt n (i + 1)
                (cur + (h / nt + (if i < h % nt then 1 else 0))) := by
          simp [buildRanges, h1, h2]
        have htot : totalRows h nt (n + 1) i =
            (h / nt + (if i < h % nt then 1 else 0)) + totalRows h nt n (i + 1) := by
          simp [totalRows, h1, h2]
        rw [hb] at ht
        rw [htot]
        rcases List.mem_cons.mp ht with he | hm
        · rw [he]
          dsimp only
          generalize h / nt + (if i < h % nt then 1 else 0) = tr at h2 ⊢
          omega
        · have := ih (i + 1) (cur + (h / nt + (if i < h % nt then 1 else 0))) t hm
          generalize h / nt + (if i < h % nt then 1 else 0) = tr at h2 this ⊢
          omega
    · simp [buildRanges, h1] at ht

lemma buildRanges_covered (h nt : ℕ) :
    ∀ (fuel i cur r : ℕ), covered (buildRanges h nt fuel i cur) r ↔
      (cur ≤ r ∧ r < cur + totalRows h nt fuel i) := by
  intro fuel
  induction fuel with
  | zero =>
    intro i cur r
    simp only [buildRanges, totalRows]
    constructor
    · intro hc; exact absurd hc (covered_nil r)
    · intro hc; omega
  | succ n ih =>
    intro i cur r
    by_cases h1 : i < nt
    · by_cases h2 : h / nt + (if i < h % nt then 1 else 0) = 0
      · have hb : buildRanges h nt (n + 1) i cur = [] := by
          simp [buildRanges, h1, h2]
        have htot : totalRows h nt (n + 1) i = 0 := by
          simp [totalRows, h1, h2]
        rw [hb, htot]
        constructor
        · intro hc; exact absurd hc (covered_nil r)
        · intro hc; omega
      · have hb : buildRanges h nt (n + 1) i cur =
            (cur, h / nt + (if i < h % nt then 1 else 0)) ::
              buildRanges h nt n (i + 1)
                (cur + (h / nt + (if i < h % nt then 1 else 0))) := by
          simp [buildRanges, h1, h2]
        have htot : totalRows h nt (n + 1) i =
            (h / nt + (if i < h % nt then 1 else 0)) + totalRows h nt n (i + 1) := by
          simp [totalRows, h1, h2]
        rw [hb, htot, covered_cons]
        have := ih (i + 1) (cur + (h / nt + (if i < h % nt then 1 else 0))) r
        rw [this]
        dsimp only
        generalize h / nt + (if i < h % nt then 1 else 0) = tr at h2 ⊢
        omega
    · have hb : buildRanges h nt (n + 1) i cur = [] := by
        simp [buildRanges, h1]
      have htot : totalRows h nt (n + 1) i = 0 := by
        simp [totalRows, h1]
      rw [hb, htot]
      constructor
      · intro hc; exact absurd hc (covered_nil r)
      · intro hc; omega

lemma buildRanges_pairwise (h nt : ℕ) :
    ∀ (fuel i cur : ℕ),
      List.Pairwise (fun a b : ℕ × ℕ => a.1 + a.2 ≤ b.1 ∨ b.1 + b.2 ≤ a.1)
        (buildRanges h nt fuel i cur) := by
  intro fuel
  induction fuel with
  | zero =>
    intro i cur
    simp [buildRanges]
  | succ n ih =>
    intro i cur
    by_cases h1 : i < nt
    · by_cases h2 : h / nt + (if i < h % nt then 1 else 0) = 0
      · have hb : buildRanges h nt (n + 1) i cur = [] := by
          simp [buildRanges, h1, h2]
        rw [hb]
        exact List.Pairwise.nil
      · have hb : buildRanges h nt (n + 1) i cur =
            (cur, h / nt + (if i < h % nt then 1 else 0)) ::
              buildRanges h nt n (i + 1)
                (cur + (h / nt + (if i < h % nt then 1 else 0))) := by
          simp [buildRanges, h1, h2]
        rw [hb]
        refine List.Pairwise.cons ?_ (ih (i + 1) _)
        intro b hmem
        have := buildRanges_mem_bounds h nt n (i + 1)
          (cur + (h / nt + (if i < h % nt then 1 else 0))) b hmem
        dsimp only
        generalize h / nt + (if i < h % nt then 1 else 0) = tr at h2 this ⊢
        omega
    · have hb : buildRanges h nt (n + 1) i cur = [] := by
        simp [buildRanges, h1]
      rw [hb]
      exact List.Pairwise.nil

lemma totalRows_eq_height (h : ℕ) : totalRows h 4 4 0 = h := by
  simp only [totalRows]
  norm_num
  split_ifs <;> omega

/-- C4: for every height H and the fixed worker count 4, the row ranges
convolute computes are pairwise disjoint, cover exactly the rows below H,
assign a positive in-bounds range to every spawned worker, and a worker
with 0 rows is never spawned. -/
theorem C4_partition (H : ℕ) :
    List.Pairwise (fun a b : ℕ × ℕ => a.1 + a.2 ≤ b.1 ∨ b.1 + b.2 ≤ a.1)
      (threadRanges H) ∧
    (∀ r, covered (threadRanges H) r ↔ r < H) ∧
    (∀ t ∈ threadRanges H, 0 < t.2 ∧ t.1 + t.2 ≤ H) := by
  have htot : totalRows H num_threads num_threads 0 = H := totalRows_eq_height H
  refine ⟨buildRanges_pairwise H num_threads num_threads 0 0, ?_, ?_⟩
  · intro r
    rw [show threadRanges H = buildRanges H num_threads num_threads 0 0 from rfl,
      buildRanges_covered H num_threads num_threads 0 0 r, htot]
    omega
  · intro t ht
    have := buildRanges_mem_bounds H num_threads num_threads 0 0 t ht
    omega

lemma writeIndex_eq (w bpp : ℕ) (c : ℕ × ℕ × ℕ) :
    writeIndex w bpp c = (c.1 * w + c.2.1) * bpp + c.2.2 := by
  unfold writeIndex Index
  rw [show ((c.1 : ℤ) * w + c.2.1) * bpp + c.2.2 =
    (((c.1 * w + c.2.1) * bpp + c.2.2 : ℕ) : ℤ) by push_cast; ring]
  exact Int.toNat_natCast _

lemma writeIndex_inj (w bpp : ℕ) (c1 c2 : ℕ × ℕ × ℕ)
    (h1p : c1.2.1 < w) (h1b : c1.2.2 < bpp)
    (h2p : c2.2.1 < w) (h2b : c2.2.2 < bpp)
    (h : writeIndex w bpp c1 = writeIndex w bpp c2) : c1 = c2 := by
  rcases c1 with ⟨r1, p1, b1⟩
  rcases c2 with ⟨r2, p2, b2⟩
  simp only at h1p h1b h2p h2b
  rw [writeIndex_eq, writeIndex_eq] at h
  simp only at h
  have hbpp : 0 < bpp := by omega
  have hw : 0 < w := by omega
  have hmod : b1 = b2 := by
    have e1 : ((r1 * w + p1) * bpp + b1) % bpp = b1 := by
      rw [mul_comm (r1 * w + p1) bpp, Nat.mul_add_mod, Nat.mod_eq_of_lt h1b]
    have e2 : ((r2 * w + p2) * bpp + b2) % bpp = b2 := by
      rw [mul_comm (r2 * w + p2) bpp, Nat.mul_add_mod, Nat.mod_eq_of_lt h2b]
    rw [← e1, ← e2, h]
  have hdiv : r1 * w + p1 = r2 * w + p2 := by
    have e1 : ((r1 * w + p1) * bpp + b1) / bpp = r1 * w + p1 := by
      rw [mul_comm (r1 * w + p1) bpp, Nat.mul_add_div hbpp, Nat.div_eq_of_lt h1b]
      omega
    have e2 : ((r2 * w + p2) * bpp + b2) / bpp = r2 * w + p2 := by
      rw [mul_comm (r2 * w + p2) bpp, Nat.mul_add_div hbpp, Nat.div_eq_of_lt h2b]
      omega
    rw [← e1, ← e2, h]
  have hp : p1 = p2 := by
    have e1 : (r1 * w + p1) % w = p1 := by
      rw [mul_comm r1 w, Nat.mul_add_mod, Nat.mod_eq_of_lt h1p]
    have e2 : (r2 * w + p2) % w = p2 := by
      rw [mul_comm r2 w, Nat.mul_add_mod, Nat.mod_eq_of_lt h2p]
    rw [← e1, ← e2, hdiv]
  have hr : r1 = r2 := by
    have e1 : (r1 * w + p1) / w = r1 := by
      rw [mul_comm r1 w, Nat.mul_add_div hw, Nat.div_eq_of_lt h1p]
      omega
    have e2 : (r2 * w + p2) / w = r2 := by
      rw [mul_comm r2 w, Nat.mul_add_div hw, Nat.div_eq_of_lt h2p]
      omega
    rw [← e1, ← e2, hdiv]
  rw [hr, hp, hmod]

lemma mem_threadCoords (args : ThreadArgs) (c : ℕ × ℕ × ℕ) :
    c ∈ threadCoords args ↔
      (args.start_row ≤ c.1 ∧ c.1 < args.start_row + args.num_rows ∧
        c.2.1 < args.width ∧ c.2.2 < args.bpp) := by
  rcases c with ⟨r, p, b⟩
  simp only [threadCoords, List.mem_flatMap, List.mem_map, List.mem_range]
  constructor
  · rintro ⟨r0, hr0, p0, hp0, b0, hb0, heq⟩
    cases heq
    refine ⟨Nat.le_add_right _ _, by omega, hp0, hb0⟩
  · rintro ⟨ha, hb2, hc, hd⟩
    exact ⟨r - args.start_row, by omega, p, hc, b, hd, by
      rw [Nat.add_sub_cancel' ha]⟩

lemma writeCell_comm (src : Image) (a : Matrix) (w bpp : ℕ) (c1 c2 : ℕ × ℕ × ℕ)
    (h1p : c1.2.1 < w) (h1b : c1.2.2 < bpp)
    (h2p : c2.2.1 < w) (h2b : c2.2.2 < bpp) (z : List ℕ) :
    writeCell src a w bpp (writeCell src a w bpp z c1) c2 =
    writeCell src a w bpp (writeCell src a w bpp z c2) c1 := by
  by_cases hc : c1 = c2
  · rw [hc]
  · have hidx : writeIndex w bpp c1 ≠ writeIndex w bpp c2 := by
      intro h
      exact hc (writeIndex_inj w bpp c1 c2 h1p h1b h2p h2b h)
    unfold writeCell
    exact List.set_comm _ _ z hidx

lemma convolute_thread_comm (src : Image) (a : Matrix) (sr1 nr1 sr2 nr2 : ℕ)
    (d : List ℕ) :
    convolute_thread ⟨src, a, sr2, nr2, src.width, src.bpp⟩
      (convolute_thread ⟨src, a, sr1, nr1, src.width, src.bpp⟩ d) =
    convolute_thread ⟨src, a, sr1, nr1, src.width, src.bpp⟩
      (convolute_thread ⟨src, a, sr2, nr2, src.width, src.bpp⟩ d) := by
  show List.foldl (writeCell src a src.width src.bpp)
      (List.foldl (writeCell src a src.width src.bpp) d
        (threadCoords ⟨src, a, sr1, nr1, src.width, src.bpp⟩))
      (threadCoords ⟨src, a, sr2, nr2, src.width, src.bpp⟩) =
    List.foldl (writeCell src a src.width src.bpp)
      (List.foldl (writeCell src a src.width src.bpp) d
        (threadCoords ⟨src, a, sr2, nr2, src.width, src.bpp⟩))
      (threadCoords ⟨src, a, sr1, nr1, src.width, src.bpp⟩)
  rw [← List.foldl_append, ← List.foldl_append]
  refine List.Perm.foldl_eq' List.perm_append_comm ?_ d
  intro c1 hc1 c2 hc2 z
  have hb1 : c1.2.1 < src.width ∧ c1.2.2 < src.bpp := by
    rcases List.mem_append.mp hc1 with hm | hm <;>
      exact ⟨((mem_threadCoords _ c1).mp hm).2.2.1, ((mem_threadCoords _ c1).mp hm).2.2.2⟩
  have hb2 : c2.2.1 < src.width ∧ c2.2.2 < src.bpp := by
    rcases List.mem_append.mp hc2 with hm | hm <;>
      exact ⟨((mem_threadCoords _ c2).mp hm).2.2.1, ((mem_threadCoords _ c2).mp hm).2.2.2⟩
  exact writeCell_comm src a src.width src.bpp c1 c2 hb1.1 hb1.2 hb2.1 hb2.2 z

/-- C8: the destination buffer convolute produces is independent of the
order in which the spawned workers run: any schedule, i.e. any permutation
of the spawned worker list, produces the buffer convolute produces; with
the function being deterministic, two runs on the same input are
byte-identical. -/
theorem C8_schedule_independent (src : Image) (a : Matrix) (dst : Image)
    (ts : List ThreadArgs) (hperm : ts.Perm (threadsOf src a)) :
    runThreads ts dst.data = (convolute src dst a).data := by
  have hcomm : ∀ x ∈ ts, ∀ y ∈ ts, ∀ z : List ℕ,
      convolute_thread y (convolute_thread x z) =
        convolute_thread x (convolute_thread y z) := by
    intro x hx y hy z
    have hx2 := (hperm.mem_iff.mp hx)
    have hy2 := (hperm.mem_iff.mp hy)
    simp only [threadsOf, List.mem_map] at hx2 hy2
    obtain ⟨t1, _, he1⟩ := hx2
    obtain ⟨t2, _, he2⟩ := hy2
    rw [← he1, ← he2]
    exact convolute_thread_comm src a t1.1 t1.2 t2.1 t2.2 z
  exact List.Perm.foldl_eq' hperm hcomm dst.data

/-- Witness for C8: running the workers of a 5-row image in reverse order
produces the buffer convolute produces. -/
theorem C8_schedule_independent_witness :
    runThreads (threadsOf ⟨1, 5, 1, [3, 1, 4, 1, 5]⟩ (algorithms .IDENTITY)).reverse
        (⟨1, 5, 1, [0, 0, 0, 0, 0]⟩ : Image).data =
      (convolute ⟨1, 5, 1, [3, 1, 4, 1, 5]⟩ ⟨1, 5, 1, [0, 0, 0, 0, 0]⟩
        (algorithms .IDENTITY)).data :=
  C8_schedule_independent ⟨1, 5, 1, [3, 1, 4, 1, 5]⟩ (algorithms .IDENTITY)
    ⟨1, 5, 1, [0, 0, 0, 0, 0]⟩ _ (List.reverse_perm _)

lemma readData_lt_256 (d : List ℕ) (hd : ∀ v ∈ d, v < 256) (i : ℤ) :
    readData d i < 256 := by
  unfold readData
  rcases lt_or_ge i.toNat d.length with hlt | hge
  · rw [List.getD_eq_getElem d 0 hlt]
    exact hd _ (List.getElem_mem hlt)
  · rw [List.getD_eq_default d 0 hge]
    omega

lemma wrap8_natCast (n : ℕ) (hn : n < 256) : wrap8 (n : ℚ) = n := by
  unfold wrap8 truncQ
  rw [Rat.num_natCast, Rat.den_natCast]
  push_cast
  rw [Int.tdiv_one]
  show ((n : ℤ) % 256).toNat = n
  omega

lemma readData_natIndex (d : List ℕ) (p r w b bpp : ℕ) :
    readData d (Index p r w b bpp) = d.getD ((r * w + p) * bpp + b) 0 := by
  unfold readData Index
  rw [show ((r : ℤ) * w + p) * bpp + b = (((r * w + p) * bpp + b : ℕ) : ℤ) by
    push_cast; ring, Int.toNat_natCast]

lemma getPixelValue_identity (img : Image) (hd : ∀ v ∈ img.data, v < 256)
    (p r b : ℕ) :
    getPixelValue img p r b (algorithms .IDENTITY) =
      img.data.getD ((r * img.width + p) * img.bpp + b) 0 := by
  have hval := readData_lt_256 img.data hd (Index p r img.width b img.bpp)
  simp only [getPixelValue, algorithms, mat3, zero_mul, one_mul, add_zero, zero_add]
  rw [readData_natIndex img.data p r img.width b img.bpp] at hval ⊢
  exact wrap8_natCast _ hval

lemma exists_coord (w h bpp k : ℕ) (hk : k < w * h * bpp) :
    ∃ r p b, r < h ∧ p < w ∧ b < bpp ∧ (r * w + p) * bpp + b = k := by
  rcases Nat.eq_zero_or_pos w with hw | hw
  · rw [hw] at hk; omega
  rcases Nat.eq_zero_or_pos h with hh | hh
  · rw [hh] at hk; simp at hk
  rcases Nat.eq_zero_or_pos bpp with hbpp | hbpp
  · rw [hbpp] at hk; simp at hk
  have hwb : 0 < w * bpp := Nat.mul_pos hw hbpp
  refine ⟨k / (w * bpp), (k % (w * bpp)) / bpp, (k % (w * bpp)) % bpp, ?_, ?_, ?_, ?_⟩
  · rw [Nat.div_lt_iff_lt_mul hwb]
    calc k < w * h * bpp := hk
    _ = h * (w * bpp) := by ring
  · rw [Nat.div_lt_iff_lt_mul hbpp]
    exact Nat.mod_lt k hwb
  · exact Nat.mod_lt _ hbpp
  · have e1 : w * bpp * (k / (w * bpp)) + k % (w * bpp) = k := Nat.div_add_mod k (w * bpp)
    have e2 : bpp * (k % (w * bpp) / bpp) + k % (w * bpp) % bpp = k % (w * bpp) :=
      Nat.div_add_mod (k % (w * bpp)) bpp
    calc (k / (w * bpp) * w + k % (w * bpp) / bpp) * bpp + k % (w * bpp) % bpp
        = w * bpp * (k / (w * bpp)) + (bpp * (k % (w * bpp) / bpp) + k % (w * bpp) % bpp) := by
          ring
    _ = w * bpp * (k / (w * bpp)) + k % (w * bpp) := by rw [e2]
    _ = k := e1

lemma foldl_writeCell_getElem_ne (src : Image) (a : Matrix) (w bpp : ℕ) :
    ∀ (cs : List (ℕ × ℕ × ℕ)) (d : List ℕ) (k : ℕ),
      (∀ c ∈ cs, writeIndex w bpp c ≠ k) →
      (cs.foldl (writeCell src a w bpp) d)[k]? = d[k]? := by
  intro cs
  induction cs with
  | nil => intro d k _; rfl
  | cons c0 cs ih =>
    intro d k hne
    rw [List.foldl_cons, ih (writeCell src a w bpp d c0) k
      (fun c hc => hne c (List.mem_cons_of_mem c0 hc))]
    unfold writeCell
    exact List.getElem?_set_ne (hne c0 (List.mem_cons_self c0 cs))

lemma foldl_writeCell_getElem_mem (src : Image) (a : Matrix) (w bpp : ℕ) :
    ∀ (cs : List (ℕ × ℕ × ℕ)) (d : List ℕ) (c : ℕ × ℕ × ℕ),
      (∀ c1 ∈ cs, c1.2.1 < w ∧ c1.2.2 < bpp) →
      c ∈ cs → writeIndex w bpp c < d.length →
      (cs.foldl (writeCell src a w bpp) d)[writeIndex w bpp c]? =
        some (getPixelValue src c.2.1 c.1 c.2.2 a) := by
  intro cs
  induction cs with
  | nil => intro d c _ hc; cases hc
  | cons c0 cs ih =>
    intro d c hbounds hc hlen
    rw [List.foldl_cons]
    have hlen0 : (writeCell src a w bpp d c0).length = d.length := by
      simp [writeCell]
    by_cases hmem : c ∈ cs
    · exact ih (writeCell src a w bpp d c0) c
        (fun c1 hc1 => hbounds c1 (List.mem_cons_of_mem c0 hc1)) hmem (by omega)
    · have hc0 : c = c0 := by
        rcases List.mem_cons.mp hc with he | hm
        · exact he
        · exact absurd hm hmem
      have hne : ∀ c1 ∈ cs, writeIndex w bpp c1 ≠ writeIndex w bpp c := by
        intro c1 hc1 heq
        have hb1 := hbounds c1 (List.mem_cons_of_mem c0 hc1)
        have hbc := hbounds c (by rw [hc0]; exact List.mem_cons_self c0 cs)
        have : c1 = c := writeIndex_inj w bpp c1 c hb1.1 hb1.2 hbc.1 hbc.2 heq
        rw [this] at hc1
        exact hmem hc1
      rw [foldl_writeCell_getElem_ne src a w bpp cs (writeCell src a w bpp d c0)
        (writeIndex w bpp c) hne]
      rw [hc0]
      unfold writeCell
      exact List.getElem?_set_self (by rw [← hc0]; exact hlen)

lemma runThreads_eq_foldl_coords (src : Image) (a : Matrix) :
    ∀ (ts : List ThreadArgs),
      (∀ t ∈ ts, t.src = src ∧ t.algorithm = a ∧ t.width = src.width ∧ t.bpp = src.bpp) →
      ∀ d : List ℕ,
        runThreads ts d =
          (ts.flatMap threadCoords).foldl (writeCell src a src.width src.bpp) d := by
  intro ts
  induction ts with
  | nil => intro _ d; rfl
  | cons t ts ih =>
    intro hts d
    obtain ⟨h1, h2, h3, h4⟩ := hts t (List.mem_cons_self t ts)
    have hstep : convolute_thread t d =
        (threadCoords t).foldl (writeCell src a src.width src.bpp) d := by
      unfold convolute_thread
      rw [h1, h2, h3, h4]
    rw [show runThreads (t :: ts) d = runThreads ts (convolute_thread t d) from rfl,
      ih (fun t2 ht2 => hts t2 (List.mem_cons_of_mem t ht2)), hstep,
      List.flatMap_cons, List.foldl_append]

/-- C1: convoluting with the identity kernel (all weights 0 except a
central 1) reproduces the source buffer exactly, for every valid image
with positive width, positive height and 1 to 4 channels and every
destination buffer of the right length. -/
theorem C1_identity_is_copy (src dst : Image) (hv : Valid src)
    (hw : 0 < src.width) (hh : 0 < src.height)
    (hb1 : 1 ≤ src.bpp) (hb4 : src.bpp ≤ 4)
    (hdlen : dst.data.length = src.width * src.height * src.bpp) :
    (convolute src dst (algorithms .IDENTITY)).data = src.data := by
  have hshare : ∀ t ∈ threadsOf src (algorithms .IDENTITY),
      t.src = src ∧ t.algorithm = algorithms .IDENTITY ∧
        t.width = src.width ∧ t.bpp = src.bpp := by
    intro t ht
    simp only [threadsOf, List.mem_map] at ht
    obtain ⟨t0, _, he⟩ := ht
    rw [← he]
    exact ⟨rfl, rfl, rfl, rfl⟩
  have hbounds : ∀ c1 ∈ (threadsOf src (algorithms .IDENTITY)).flatMap threadCoords,
      c1.2.1 < src.width ∧ c1.2.2 < src.bpp := by
    intro c1 hc1
    obtain ⟨args, hargs, hcmem⟩ := List.mem_flatMap.mp hc1
    obtain ⟨_, _, hw2, hb2⟩ := hshare args hargs
    have := (mem_threadCoords args c1).mp hcmem
    rw [hw2] at this
    rw [hb2] at this
    exact ⟨this.2.2.1, this.2.2.2⟩
  have hrw : (convolute src dst (algorithms .IDENTITY)).data =
      ((threadsOf src (algorithms .IDENTITY)).flatMap threadCoords).foldl
        (writeCell src (algorithms .IDENTITY) src.width src.bpp) dst.data := by
    rw [show (convolute src dst (algorithms .IDENTITY)).data =
      runThreads (threadsOf src (algorithms .IDENTITY)) dst.data from rfl]
    exact runThreads_eq_foldl_coords src (algorithms .IDENTITY)
      (threadsOf src (algorithms .IDENTITY)) hshare dst.data
  have hlen : (((threadsOf src (algorithms .IDENTITY)).flatMap threadCoords).foldl
      (writeCell src (algorithms .IDENTITY) src.width src.bpp) dst.data).length =
      dst.data.length :=
    foldl_writeCell_length src (algorithms .IDENTITY) src.width src.bpp _ dst.data
  apply List.ext_getElem?
  intro n
  rw [hrw]
  by_cases hn : n < src.width * src.height * src.bpp
  · obtain ⟨r, p, b, hr, hp, hb, hk⟩ :=
      exists_coord src.width src.height src.bpp n hn
    have hcov : covered (threadRanges src.height) r := by
      unfold threadRanges
      rw [buildRanges_covered src.height num_threads num_threads 0 0 r]
      have htot : totalRows src.height num_threads num_threads 0 = src.height :=
        totalRows_eq_height src.height
      omega
    obtain ⟨t0, ht0, hrange⟩ := hcov
    have hcmem : ((r, p, b) : ℕ × ℕ × ℕ) ∈
        threadCoords (⟨src, algorithms .IDENTITY, t0.1, t0.2, src.width, src.bpp⟩ : ThreadArgs) := by
      rw [mem_threadCoords]
      exact ⟨hrange.1, hrange.2, hp, hb⟩
    have hflat : ((r, p, b) : ℕ × ℕ × ℕ) ∈
        (threadsOf src (algorithms .IDENTITY)).flatMap threadCoords := by
      apply List.mem_flatMap.mpr
      refine ⟨⟨src, algorithms .IDENTITY, t0.1, t0.2, src.width, src.bpp⟩, ?_, hcmem⟩
      simp only [threadsOf, List.mem_map]
      exact ⟨t0, ht0, rfl⟩
    have hwidx : writeIndex src.width src.bpp (r, p, b) = n := by
      rw [writeIndex_eq]
      exact hk
    have hval := foldl_writeCell_getElem_mem src (algorithms .IDENTITY)
      src.width src.bpp ((threadsOf src (algorithms .IDENTITY)).flatMap threadCoords)
      dst.data (r, p, b) hbounds hflat (by rw [hwidx, hdlen]; exact hn)
    rw [hwidx] at hval
    rw [hval]
    have hgpv := getPixelValue_identity src hv.2 p r b
    rw [hgpv, hk]
    rw [List.getD_eq_getElem src.data 0 (by rw [hv.1]; exact hn),
      List.getElem?_eq_getElem (by rw [hv.1]; exact hn)]
  · rw [List.getElem?_eq_none (by omega), List.getElem?_eq_none (by rw [hv.1]; omega)]

/-- Witness for C1 on a concrete 2x2 single-channel image. -/
theorem C1_identity_is_copy_witness :
    (convolute cornerImage ⟨2, 2, 1, [0, 0, 0, 0]⟩ (algorithms .IDENTITY)).data =
      cornerImage.data :=
  C1_identity_is_copy cornerImage ⟨2, 2, 1, [0, 0, 0, 0]⟩
    ⟨rfl, by decide⟩ (by decide) (by decide) (by decide) (by decide) rfl

/-- A 2x1 single-channel source image. -/
def mismatchSrc : Image := ⟨2, 1, 1, [5, 7]⟩

/-- A destination whose width 1 differs from the source's width 2; its
buffer deliberately has two cells so that the writes convolute performs
through the source's dimensions stay visible. -/
def mismatchDst : Image := ⟨1, 1, 1, [9, 9]⟩

/-- C5 (code behavior): convolute performs no shape validation whatsoever:
called with a destination whose width differs from the source's width, it
spawns its workers and overwrites the destination buffer using the
source's dimensions instead of failing with a ShapeMismatch error and
leaving the buffer unmodified. -/
theorem C5_no_shape_check :
    (convolute mismatchSrc mismatchDst (algorithms .IDENTITY)).data = [5, 7] ∧
    (convolute mismatchSrc mismatchDst (algorithms .IDENTITY)).data ≠ mismatchDst.data := by
  have hd : ∀ v ∈ mismatchSrc.data, v < 256 := by decide
  have g0 : getPixelValue mismatchSrc 0 0 0 (algorithms .IDENTITY) = 5 := by
    have h := getPixelValue_identity mismatchSrc hd 0 0 0
    simp only [Nat.cast_zero] at h
    rw [h]
    decide
  have g1 : getPixelValue mismatchSrc 1 0 0 (algorithms .IDENTITY) = 7 := by
    have h := getPixelValue_identity mismatchSrc hd 1 0 0
    simp only [Nat.cast_zero, Nat.cast_one] at h
    rw [h]
    decide
  have hmain : (convolute mismatchSrc mismatchDst (algorithms .IDENTITY)).data = [5, 7] := by
    show runThreads (threadsOf mismatchSrc (algorithms .IDENTITY)) mismatchDst.data = [5, 7]
    rw [show threadsOf mismatchSrc (algorithms .IDENTITY) =
      [⟨mismatchSrc, algorithms .IDENTITY, 0, 1, 2, 1⟩] from rfl]
    show convolute_thread ⟨mismatchSrc, algorithms .IDENTITY, 0, 1, 2, 1⟩ [9, 9] = [5, 7]
    unfold convolute_thread
    rw [show threadCoords ⟨mismatchSrc, algorithms .IDENTITY, 0, 1, 2, 1⟩ =
      [(0, 0, 0), (0, 1, 0)] from rfl]
    rw [List.foldl_cons, List.foldl_cons, List.foldl_nil]
    unfold writeCell
    rw [show writeIndex 2 1 ((0, 0, 0) : ℕ × ℕ × ℕ) = 0 from by decide,
      show writeIndex 2 1 ((0, 1, 0) : ℕ × ℕ × ℕ) = 1 from by decide]
    show ([9, 9].set 0 (getPixelValue mismatchSrc 0 0 0 (algorithms .IDENTITY))).set 1
      (getPixelValue mismatchSrc 1 0 0 (algorithms .IDENTITY)) = [5, 7]
    rw [g0, g1]
    decide
  refine ⟨hmain, ?_⟩
  rw [hmain]
  decide

end ImagePthread
